import Mathlib

/-!
Verification development for the chess-ai decision core (`logic.py`) and the
surrounding game loop fragment (`gui.py`) that performs terminal credit
assignment.  The rules engine (python-chess) is external to the repository and
is modelled abstractly through the interface the core consumes: side to move,
terminal flags, piece counts, centre occupancy, legal-move list, canonical FEN
string, and a push transition.
-/

namespace ChessAI

/-- Move identity: the canonical UCI string (`move.uci()`). -/
abbrev Move := String

/-- The six chess piece kinds used by `evaluate_board`'s material table. -/
inductive PieceType where
  | pawn | knight | bishop | rook | queen | king
deriving DecidableEq, Repr

/-- The rules-engine data of a position that the core reads:
turn (`true` = White, matching `chess.WHITE = True`), terminal flags,
piece counts per kind and colour, occupancy of the four centre squares
(d4, d5, e4, e5; `some c` = occupied by colour `c`), the legal-move list in
the engine's deterministic enumeration order, and the FEN identity string. -/
structure BoardData where
  turn : Bool
  isCheckmate : Bool
  isStalemate : Bool
  isInsufficientMaterial : Bool
  isGameOver : Bool
  pieceCount : PieceType → Bool → Nat
  centerPiece : Fin 4 → Option Bool
  legalMoves : List Move
  fen : String

/-- A position together with its successor positions: `push` follows the
child labelled by a move (the rules engine's `board.push`).  Children are a
finite association list; pushing a move with no listed child is outside the
contract (the core only pushes members of `legalMoves`). -/
inductive Board where
  | mk : BoardData → List (Move × Board) → Board

def Board.data : Board → BoardData
  | .mk d _ => d

def Board.children : Board → List (Move × Board)
  | .mk _ c => c

/-- `board.push(move)`: move to the successor position. -/
def Board.push (b : Board) (m : Move) : Board :=
  (b.children.lookup m).getD b

/-- Material weights from `evaluate_board` (`piece_values`). -/
def pieceValue : PieceType → ℤ
  | .pawn => 100
  | .knight => 300
  | .bishop => 350
  | .rook => 500
  | .queen => 900
  | .king => 0

/-- Iteration order of the `piece_values` dict in `evaluate_board`. -/
def pieceKinds : List PieceType :=
  [.pawn, .knight, .bishop, .rook, .queen, .king]

/-- The material loop of `evaluate_board`: for each piece kind, add
(white count − black count) × weight. -/
def materialScore (b : Board) : ℤ :=
  pieceKinds.foldl
    (fun s pt =>
      s + (b.data.pieceCount pt true : ℤ) * pieceValue pt
        - (b.data.pieceCount pt false : ℤ) * pieceValue pt) 0

/-- The centre-control loop of `evaluate_board`: ±20 per occupied centre
square, sign following the occupant's colour. -/
def centerScore (b : Board) : ℤ :=
  (List.finRange 4).foldl
    (fun s i =>
      match b.data.centerPiece i with
      | some c => s + (if c then 20 else -20)
      | none => s) 0

/-- `ChessAI.evaluate_board`: terminal cases first (checkmate ⇒ ∓10000 with
sign opposite the side to move; stalemate or insufficient material ⇒ 0),
otherwise material plus centre control. -/
def evaluate_board (b : Board) : ℤ :=
  if b.data.isCheckmate then (if b.data.turn then -10000 else 10000)
  else if b.data.isStalemate || b.data.isInsufficientMaterial then 0
  else materialScore b + centerScore b

/-- The Q-table: a dict from FEN string to a dict from UCI string to a
preference value.  Floats are modelled as rationals. -/
structure QTable where
  q : String → Option (String → Option ℚ)

/-- A fresh, empty table (`self.q = {}` with no file present). -/
def QTable.empty : QTable := ⟨fun _ => none⟩

/-- `QTable.get_q`: `self.q.get(fen, {}).get(move, 0)`. -/
def QTable.getQ (t : QTable) (fen move : String) : ℚ :=
  (((t.q fen).getD (fun _ => none)) move).getD 0

/-- The raw stored entry at `(fen, move)` (`none` when absent). -/
def QTable.lookupEntry (t : QTable) (fen move : String) : Option ℚ :=
  (t.q fen).bind (fun row => row move)

/-- `QTable.update`: ensure the row for `fen` exists, read the old value with
default `0.0`, and store `old_q + alpha * (reward - old_q)`. -/
def QTable.update (t : QTable) (fen move : String) (reward alpha : ℚ) : QTable :=
  let row := (t.q fen).getD (fun _ => none)
  let oldQ := (row move).getD 0
  ⟨fun f =>
    if f = fen then
      some (fun m => if m = move then some (oldQ + alpha * (reward - oldQ)) else row m)
    else t.q f⟩

/-- The default learning rate `LEARNING_RATE = 0.1`. -/
def LEARNING_RATE : ℚ := 1 / 10

/-- The ordering under which `get_ordered_moves` sorts: Python's `sorted` with
key `qtable.get_q(fen, m.uci())` and `reverse=True` is the stable sort placing
`m1` no later than `m2` exactly when `get_q m2 ≤ get_q m1`. -/
def moveOrder (t : QTable) (fen : String) (m₁ m₂ : Move) : Prop :=
  t.getQ fen m₂ ≤ t.getQ fen m₁

instance (t : QTable) (fen : String) : DecidableRel (moveOrder t fen) :=
  fun m₁ m₂ => inferInstanceAs (Decidable (t.getQ fen m₂ ≤ t.getQ fen m₁))

/-- `ChessAI.get_ordered_moves`: legal moves, stably sorted by descending
Q-value for the current FEN.  A stable sort under a fixed total preorder has a
unique result, so the stable `insertionSort` renders `sorted(..., reverse=True)`
faithfully. -/
def get_ordered_moves (t : QTable) (b : Board) : List Move :=
  b.data.legalMoves.insertionSort (moveOrder t b.data.fen)

/-- Search values: board scores extended with `-float('inf')` and
`+float('inf')`, as used for the alpha-beta window. -/
abbrev EInt := WithBot (WithTop ℤ)

/-- A finite score as a search value. -/
def intE (n : ℤ) : EInt := ((n : WithTop ℤ) : EInt)

/-- The maximizing loop of `alpha_beta`: for each move in order, recurse on
the child with the current window, fold the result into `value`, raise
`alpha`, and break on `alpha >= beta`.  `rec c al be` stands for
`self.alpha_beta(c, depth - 1, al, be, False)`. -/
def abLoopMax (rec : Board → EInt → EInt → EInt) (b : Board) :
    List Move → EInt → EInt → EInt → EInt
  | [], value, _, _ => value
  | m :: ms, value, alpha, beta =>
    let value' := max value (rec (b.push m) alpha beta)
    let alpha' := max alpha value'
    if beta ≤ alpha' then value'
    else abLoopMax rec b ms value' alpha' beta

/-- The minimizing loop of `alpha_beta`, symmetric to `abLoopMax`. -/
def abLoopMin (rec : Board → EInt → EInt → EInt) (b : Board) :
    List Move → EInt → EInt → EInt → EInt
  | [], value, _, _ => value
  | m :: ms, value, alpha, beta =>
    let value' := min value (rec (b.push m) alpha beta)
    let beta' := min beta value'
    if beta' ≤ alpha then value'
    else abLoopMin rec b ms value' alpha beta'

/-- `ChessAI.alpha_beta`: depth-limited fail-soft alpha-beta search.
At depth 0 or in a game-over or move-less position it returns the static
evaluation; otherwise it runs the pruned maximizing/minimizing loop over the
ordered moves. -/
def alpha_beta (t : QTable) : Board → Nat → EInt → EInt → Bool → EInt
  | b, 0, _, _, _ => intE (evaluate_board b)
  | b, depth + 1, alpha, beta, maximizing =>
    if b.data.isGameOver then intE (evaluate_board b)
    else
      let moves := get_ordered_moves t b
      if moves.isEmpty then intE (evaluate_board b)
      else if maximizing then
        abLoopMax (fun c al be => alpha_beta t c depth al be false) b moves ⊥ alpha beta
      else
        abLoopMin (fun c al be => alpha_beta t c depth al be true) b moves ⊤ alpha beta

/-- Modelled from the spec (§4.3, §8 "Alpha-beta equivalence"): the unpruned
full minimax search of the same depth on the same tree, the reference point
for the refinement claim.  Structure follows the spec's words: base case on
depth 0 / terminal / move-less positions returns the evaluation, otherwise
the maximum (resp. minimum) of the children's values. -/
def minimax : Board → Nat → Bool → EInt
  | b, 0, _ => intE (evaluate_board b)
  | b, depth + 1, maximizing =>
    if b.data.isGameOver then intE (evaluate_board b)
    else if b.data.legalMoves.isEmpty then intE (evaluate_board b)
    else if maximizing then
      (b.data.legalMoves.map (fun m => minimax (b.push m) depth false)).foldl max ⊥
    else
      (b.data.legalMoves.map (fun m => minimax (b.push m) depth true)).foldl min ⊤

/-- The root move loop of one depth of `iterative_deepening`: for each legal
move, search the reply at `depth - 1` with window `(alpha, +∞)` and
`maximizing=False`, record `(move, value)` into this depth's row, adopt the
move on strict improvement (`value > current_value`), then raise `alpha`.
`calls` counts the `alpha_beta` invocations made. -/
def rootLoop (t : QTable) (b : Board) (d : Nat) :
    List Move → EInt → Option Move → EInt → List (Move × EInt) → Nat →
    List (Move × EInt) × Option Move × EInt × Nat
  | [], _, cb, cv, acc, calls => (acc.reverse, cb, cv, calls)
  | m :: ms, alpha, cb, cv, acc, calls =>
    let v := alpha_beta t (b.push m) d alpha ⊤ false
    let s := if cv < v then (some m, v) else (cb, cv)
    rootLoop t b d ms (max alpha v) s.1 s.2 ((m, v) :: acc) (calls + 1)

/-- The depth loop of `iterative_deepening` (`for depth in range(1, max_depth+1)`),
with `fuel` iterations remaining and current depth `d`.  `timeUp d` is the
outcome of the wall-clock check `time.time() - start_time > self.time_limit`
at the top of depth `d`; a true check breaks the loop.  A completed depth
whose `current_best` is set replaces the overall best move and value. -/
def depthLoop (t : QTable) (b : Board) (timeUp : Nat → Bool) (ms : List Move) :
    Nat → Nat → Option Move → EInt → List (Nat × List (Move × EInt)) → Nat →
    Option Move × List (Nat × List (Move × EInt)) × Nat
  | 0, _, best, _, rows, calls => (best, rows, calls)
  | fuel + 1, d, best, bestVal, rows, calls =>
    if timeUp d then (best, rows, calls)
    else
      let r := rootLoop t b (d - 1) ms ⊥ best ⊥ [] calls
      depthLoop t b timeUp ms fuel (d + 1)
        (if r.2.1.isSome then r.2.1 else best)
        (if r.2.1.isSome then r.2.2.1 else bestVal)
        (rows ++ [(d, r.1)]) r.2.2.2

/-- The driver's result: best move (or none), score table (or none), and the
number of `alpha_beta` invocations the driver made. -/
structure IDResult where
  bestMove : Option Move
  tree : Option (List (Nat × List (Move × EInt)))
  calls : Nat
deriving Repr

/-- `ChessAI.iterative_deepening`: order the legal moves once; with no legal
move return `(None, None)` immediately; otherwise run depths `1..max_depth`
under the time check and return the best move with the per-depth score table. -/
def iterative_deepening (t : QTable) (b : Board) (timeUp : Nat → Bool)
    (maxDepth : Nat) : IDResult :=
  let legalMoves := get_ordered_moves t b
  if legalMoves.isEmpty then ⟨none, none, 0⟩
  else
    let r := depthLoop t b timeUp legalMoves maxDepth 1 none ⊥ [] 0
    ⟨r.1, some r.2.1, r.2.2⟩

/-- `ChessAI.compute_best_move`: remember the pre-move FEN and score, run the
driver; on success apply the chosen move, derive the shaping reward
`(new_score - prev_score) / 100.0`, and update the Q-table at the pre-move
FEN with the default learning rate; on failure change nothing. -/
def compute_best_move (t : QTable) (b : Board) (timeUp : Nat → Bool) (maxDepth : Nat) :
    Option Move × Option (List (Nat × List (Move × EInt))) × QTable :=
  let fen := b.data.fen
  let prevScore := evaluate_board b
  let r := iterative_deepening t b timeUp maxDepth
  match r.bestMove with
  | some m =>
    let newScore := evaluate_board (b.push m)
    let reward : ℚ := ((newScore - prevScore : ℤ) : ℚ) / 100
    (some m, r.tree, t.update fen m reward LEARNING_RATE)
  | none => (none, r.tree, t)

/-- `ChessAI.goal_test`: `"Win" if board.turn != chess.WHITE else "Loss"` on
checkmate (with `chess.WHITE = True`), `"Draw"` on stalemate or insufficient
material, else `"Ongoing"`. -/
def goal_test (b : Board) : String :=
  if b.data.isCheckmate then (if b.data.turn then "Loss" else "Win")
  else if b.data.isStalemate || b.data.isInsufficientMaterial then "Draw"
  else "Ongoing"

/-- One played move as the game loop (`gui.main`) records it: the board is
pushed first, and then `(board.fen(), move.uci())` — the FEN of the position
*after* the move — is appended to `move_history`. -/
def recordMove (s : Board × List (String × Move)) (m : Move) :
    Board × List (String × Move) :=
  let b' := s.1.push m
  (b', s.2 ++ [(b'.data.fen, m)])

/-- Play a sequence of moves from a starting position, accumulating the
game loop's `move_history`. -/
def playMoves (b : Board) (ms : List Move) : Board × List (String × Move) :=
  ms.foldl recordMove (b, [])

/-- `reward = 1 if result == "Win" else -1 if result == "Loss" else 0`. -/
def terminalReward (result : String) : ℚ :=
  if result = "Win" then 1 else if result = "Loss" then -1 else 0

/-- The terminal credit assignment of `gui.main`: for every `(fen, move)` of
the shared `move_history`, update table 1 with `reward` and table 2 (when
present) with `-reward`, both at the default learning rate. -/
def terminalCredit (q1 : QTable) (q2 : Option QTable) (reward : ℚ)
    (hist : List (String × Move)) : QTable × Option QTable :=
  hist.foldl
    (fun p fm =>
      (p.1.update fm.1 fm.2 reward LEARNING_RATE,
       p.2.map fun t => t.update fm.1 fm.2 (-reward) LEARNING_RATE)) (q1, q2)

/-- A board-mutation event performed on the shared position:
`board.push(move)` or `board.pop()`. -/
inductive Ev where
  | push (m : Move)
  | pop
deriving DecidableEq, Repr

/-- The mutable position resource: the current board together with the undo
stack that `board.push` grows and `board.pop` shrinks. -/
structure Stk where
  cur : Board
  stack : List Board

/-- `board.push(move)`: advance the current position, saving the old one. -/
def Stk.doPush (s : Stk) (m : Move) : Stk := ⟨s.cur.push m, s.cur :: s.stack⟩

/-- `board.pop()`: restore the latest saved position. -/
def Stk.doPop (s : Stk) : Stk :=
  match s.stack with
  | b :: rest => ⟨b, rest⟩
  | [] => s

/-- Run a trace of mutation events against the shared position. -/
def runTrace (s : Stk) : List Ev → Stk
  | [] => s
  | Ev.push m :: rest => runTrace (s.doPush m) rest
  | Ev.pop :: rest => runTrace s.doPop rest

/-- Balanced traces: every `pop` reverts exactly the latest unreverted `push`
(strict last-applied-first-reverted nesting). -/
inductive Balanced : List Ev → Prop where
  | nil : Balanced []
  | nest (m : Move) {t₁ t₂ : List Ev} : Balanced t₁ → Balanced t₂ →
      Balanced (Ev.push m :: t₁ ++ Ev.pop :: t₂)

/-- The mutation trace of the maximizing loop of `alpha_beta`: each move is
pushed, the child searched (emitting its own trace), the move popped, and the
loop continues unless `alpha >= beta`.  `rec`/`recT` stand for the value and
trace of `self.alpha_beta(child, depth - 1, ..., False)`. -/
def abLoopMaxTrace (rec : Board → EInt → EInt → EInt)
    (recT : Board → EInt → EInt → List Ev) (b : Board) :
    List Move → EInt → EInt → EInt → List Ev
  | [], _, _, _ => []
  | m :: ms, value, alpha, beta =>
    let value' := max value (rec (b.push m) alpha beta)
    let alpha' := max alpha value'
    Ev.push m :: recT (b.push m) alpha beta ++ Ev.pop ::
      (if beta ≤ alpha' then [] else abLoopMaxTrace rec recT b ms value' alpha' beta)

/-- The mutation trace of the minimizing loop of `alpha_beta`. -/
def abLoopMinTrace (rec : Board → EInt → EInt → EInt)
    (recT : Board → EInt → EInt → List Ev) (b : Board) :
    List Move → EInt → EInt → EInt → List Ev
  | [], _, _, _ => []
  | m :: ms, value, alpha, beta =>
    let value' := min value (rec (b.push m) alpha beta)
    let beta' := min beta value'
    Ev.push m :: recT (b.push m) alpha beta ++ Ev.pop ::
      (if beta' ≤ alpha then [] else abLoopMinTrace rec recT b ms value' alpha beta')

/-- The mutation trace of `alpha_beta`: empty in the leaf branches, otherwise
the trace of the pruned loop actually executed. -/
def alphaBetaTrace (t : QTable) : Board → Nat → EInt → EInt → Bool → List Ev
  | _, 0, _, _, _ => []
  | b, depth + 1, alpha, beta, maximizing =>
    if b.data.isGameOver then []
    else
      let moves := get_ordered_moves t b
      if moves.isEmpty then []
      else if maximizing then
        abLoopMaxTrace (fun c al be => alpha_beta t c depth al be false)
          (fun c al be => alphaBetaTrace t c depth al be false) b moves ⊥ alpha beta
      else
        abLoopMinTrace (fun c al be => alpha_beta t c depth al be true)
          (fun c al be => alphaBetaTrace t c depth al be true) b moves ⊤ alpha beta

/-- The mutation trace of one depth of the driver's root loop: push each root
move, search the reply, pop. -/
def rootLoopTrace (t : QTable) (b : Board) (d : Nat) :
    List Move → EInt → List Ev
  | [], _ => []
  | m :: ms, alpha =>
    let v := alpha_beta t (b.push m) d alpha ⊤ false
    Ev.push m :: alphaBetaTrace t (b.push m) d alpha ⊤ false ++ Ev.pop ::
      rootLoopTrace t b d ms (max alpha v)

/-- The mutation trace of the driver's depth loop (the per-depth choice of
best move does not touch the board, so the trace is just the concatenation of
the per-depth root-loop traces up to the time check). -/
def depthLoopTrace (t : QTable) (b : Board) (timeUp : Nat → Bool) (ms : List Move) :
    Nat → Nat → List Ev
  | 0, _ => []
  | fuel + 1, d =>
    if timeUp d then []
    else rootLoopTrace t b (d - 1) ms ⊥ ++ depthLoopTrace t b timeUp ms fuel (d + 1)

/-- The mutation trace of `iterative_deepening`. -/
def iterativeDeepeningTrace (t : QTable) (b : Board) (timeUp : Nat → Bool)
    (maxDepth : Nat) : List Ev :=
  let legalMoves := get_ordered_moves t b
  if legalMoves.isEmpty then []
  else depthLoopTrace t b timeUp legalMoves maxDepth 1

/-- The mutation trace of `compute_best_move`: the driver's trace followed by
the push/pop pair around the shaping-reward evaluation of the chosen move. -/
def computeBestMoveTrace (t : QTable) (b : Board) (timeUp : Nat → Bool)
    (maxDepth : Nat) : List Ev :=
  iterativeDeepeningTrace t b timeUp maxDepth ++
    match (iterative_deepening t b timeUp maxDepth).bestMove with
    | some m => [Ev.push m, Ev.pop]
    | none => []

/-- `n`-fold repetition of `QTable.update` at one key with a fixed reward. -/
def QTable.iterUpdate (t : QTable) (fen move : String) (reward alpha : ℚ) :
    Nat → QTable
  | 0 => t
  | n + 1 => (t.iterUpdate fen move reward alpha n).update fen move reward alpha

/-- Board data for a childless sample position. -/
def leafData (turn cm sm im go : Bool) (fen : String) : BoardData :=
  ⟨turn, cm, sm, im, go, fun _ _ => 0, fun _ => none, [], fen⟩

/-- A checkmated sample position with White to move. -/
def mateWhiteB : Board := .mk (leafData true true false false true "mateW") []

/-- A checkmated sample position with Black to move. -/
def mateBlackB : Board := .mk (leafData false true false false true "mateB") []

/-- A stalemated sample position. -/
def staleB : Board := .mk (leafData true false true false true "stale") []

/-- A sample position with no legal moves. -/
def noMovesB : Board := .mk (leafData true false false false false "nomoves") []

/-- A sample position with three legal moves and no children (only move
ordering is exercised on it). -/
def threeMovesB : Board :=
  .mk ⟨true, false, false, false, false, fun _ _ => 0, fun _ => none,
    ["a", "b", "c"], "three"⟩ []

/-- A childless position evaluating to 50 (a white bishop against a black
knight). -/
def leaf50 : Board :=
  .mk ⟨true, false, false, false, false,
    fun pt c => match pt, c with
      | .bishop, true => 1
      | .knight, false => 1
      | _, _ => 0,
    fun _ => none, [], "leaf50"⟩ []

/-- A childless position evaluating to 30 (a white bishop against a black
knight, with a black piece on one centre square). -/
def leaf30 : Board :=
  .mk ⟨true, false, false, false, false,
    fun pt c => match pt, c with
      | .bishop, true => 1
      | .knight, false => 1
      | _, _ => 0,
    fun i => if i = 0 then some false else none, [], "leaf30"⟩ []

/-- A childless position evaluating to 0. -/
def leaf0 : Board := .mk (leafData true false false false false "leaf0") []

/-- A position whose two replies evaluate to 30 and 0: searching it with a
narrowed window can cut off after the 30 reply and miss the true minimum 0. -/
def ceC2 : Board :=
  .mk ⟨true, false, false, false, false, fun _ _ => 0, fun _ => none,
    ["c", "d"], "cec2"⟩ [("c", leaf30), ("d", leaf0)]

/-- A root with two moves: move "a" reaches the 50-leaf, move "b" reaches
`ceC2`. -/
def ceB : Board :=
  .mk ⟨true, false, false, false, false, fun _ _ => 0, fun _ => none,
    ["a", "b"], "ceroot"⟩ [("a", leaf50), ("b", ceC2)]

/-- A checkmated final position (Black to move and mated: White wins). -/
def mateP2 : Board := .mk (leafData false true false false true "f2") []

/-- The position after White's first move in the two-move sample game. -/
def mateP1 : Board :=
  .mk ⟨false, false, false, false, false, fun _ _ => 0, fun _ => none, ["m2"], "f1"⟩
    [("m2", mateP2)]

/-- The starting position of the two-move sample game. -/
def mateP0 : Board :=
  .mk ⟨true, false, false, false, false, fun _ _ => 0, fun _ => none, ["m1"], "f0"⟩
    [("m1", mateP1)]

/-- The row of the score table that one depth of the root loop records,
together with the running-alpha threading: entry `(m, v)` carries
`v = alpha_beta(board.push m, d, alpha, +∞, False)` for the alpha in force,
and `alpha` is then raised by `v`. -/
def rowOf (t : QTable) (b : Board) (d : Nat) : List Move → EInt → List (Move × EInt)
  | [], _ => []
  | m :: ms, alpha =>
    let v := alpha_beta t (b.push m) d alpha ⊤ false
    (m, v) :: rowOf t b d ms (max alpha v)

/-- The `current_best`/`current_value` tracking of the root loop in isolation:
a candidate replaces the incumbent only under strict `value > current_value`. -/
def pickBest : List (Move × EInt) → Option Move × EInt → Option Move × EInt
  | [], s => s
  | (m, v) :: row, s => pickBest row (if s.2 < v then (some m, v) else s)

/-- The maximum value recorded in a score-table row. -/
def rowMax (row : List (Move × EInt)) : EInt :=
  (row.map Prod.snd).foldl max ⊥

/-- The first move of a score-table row (in the root ordering) achieving the
row's maximum recorded value. -/
def firstMaxMove (row : List (Move × EInt)) : Option Move :=
  (row.find? (fun p => decide (p.2 = rowMax row))).map Prod.fst

/-- A search value is finite when it is a board score, neither `-inf` nor
`+inf`. -/
def IsFin (v : EInt) : Prop := ∃ n : ℤ, v = intE n

/-- Soundness of a score-table row against the running alpha it was produced
with: each recorded value upper-bounds the exact minimax value of the position
after the move, and equals it exactly whenever it strictly exceeds the alpha
in force when the move was searched. -/
def RowSoundFrom (t : QTable) (b : Board) (d : Nat) :
    List (Move × EInt) → EInt → Prop
  | [], _ => True
  | (m, v) :: rest, alpha =>
    minimax (b.push m) d false ≤ v ∧
    (alpha < v → v = minimax (b.push m) d false) ∧
    RowSoundFrom t b d rest (max alpha v)

/-! ### Basic Q-table lemmas -/

theorem getQ_update_self (t : QTable) (f m : String) (r a : ℚ) :
    (t.update f m r a).getQ f m = t.getQ f m + a * (r - t.getQ f m) := by
  simp [QTable.update, QTable.getQ]

theorem getQ_eq_lookupEntry (t : QTable) (f m : String) :
    t.getQ f m = (t.lookupEntry f m).getD 0 := by
  cases h : t.q f <;> simp [QTable.getQ, QTable.lookupEntry, h]

theorem iterUpdate_closed (t : QTable) (f m : String) (r a : ℚ) :
    ∀ n, r - (t.iterUpdate f m r a n).getQ f m = (1 - a) ^ n * (r - t.getQ f m)
  | 0 => by simp [QTable.iterUpdate]
  | n + 1 => by
    have h := iterUpdate_closed t f m r a n
    calc r - (t.iterUpdate f m r a (n + 1)).getQ f m
        = (1 - a) * (r - (t.iterUpdate f m r a n).getQ f m) := by
          simp only [QTable.iterUpdate, getQ_update_self]; ring
      _ = (1 - a) ^ (n + 1) * (r - t.getQ f m) := by rw [h]; ring

theorem lookupEntry_update_of_ne (t : QTable) (f m : String) (r a : ℚ)
    (f' m' : String) (h : ¬(f' = f ∧ m' = m)) :
    (t.update f m r a).lookupEntry f' m' = t.lookupEntry f' m' := by
  by_cases hf : f' = f
  · subst hf
    have hm : m' ≠ m := fun hm => h ⟨rfl, hm⟩
    cases hq : t.q f' <;>
      simp [QTable.update, QTable.lookupEntry, hm, hq]
  · simp [QTable.update, QTable.lookupEntry, hf]

theorem getQ_update_of_ne (t : QTable) (f m : String) (r a : ℚ)
    (f' m' : String) (h : ¬(f' = f ∧ m' = m)) :
    (t.update f m r a).getQ f' m' = t.getQ f' m' := by
  rw [getQ_eq_lookupEntry, getQ_eq_lookupEntry,
    lookupEntry_update_of_ne t f m r a f' m' h]

theorem lr_pos : (0 : ℚ) < LEARNING_RATE := by norm_num [LEARNING_RATE]

theorem lr_lt_one : LEARNING_RATE < 1 := by norm_num [LEARNING_RATE]

/-! ### Claim theorems: evaluator and Q-table -/

/-- C4: on a checkmate, `evaluate_board` returns a score of magnitude exactly
10000 whose sign is the opposite of the side to move (−10000 with White to
move, +10000 with Black to move); on a stalemate or insufficient-material
position that is not a checkmate it returns exactly 0. -/
theorem claim_C4 (b : Board) :
    (b.data.isCheckmate = true →
      evaluate_board b = if b.data.turn then -10000 else 10000) ∧
    (b.data.isCheckmate = false →
      b.data.isStalemate = true ∨ b.data.isInsufficientMaterial = true →
      evaluate_board b = 0) := by
  constructor
  · intro h; simp [evaluate_board, h]
  · intro h h'; rcases h' with h' | h' <;> simp [evaluate_board, h, h']

theorem claim_C4_witness :
    mateWhiteB.data.isCheckmate = true ∧ evaluate_board mateWhiteB = -10000 ∧
    evaluate_board mateBlackB = 10000 ∧
    staleB.data.isCheckmate = false ∧ evaluate_board staleB = 0 := by
  refine ⟨rfl, ?_, ?_, rfl, ?_⟩
  · simpa using (claim_C4 mateWhiteB).1 rfl
  · simpa using (claim_C4 mateBlackB).1 rfl
  · exact (claim_C4 staleB).2 rfl (Or.inl rfl)

/-- C10: `QTable.update` at key `(f, m)` changes at most that single entry:
every other stored `(position identity, move identity)` entry keeps exactly
its previous value, and no entry is removed (the updated key itself is
present afterwards). -/
theorem claim_C10 (t : QTable) (f m : String) (r a : ℚ) :
    (∀ f' m', ¬(f' = f ∧ m' = m) →
      (t.update f m r a).lookupEntry f' m' = t.lookupEntry f' m') ∧
    ((t.update f m r a).lookupEntry f m).isSome = true := by
  constructor
  · exact fun f' m' h => lookupEntry_update_of_ne t f m r a f' m' h
  · simp [QTable.update, QTable.lookupEntry]

theorem claim_C10_witness :
    (QTable.empty.update "a" "b" 1 1).lookupEntry "a" "c" =
      QTable.empty.lookupEntry "a" "c" ∧
    ((QTable.empty.update "a" "b" 1 1).lookupEntry "a" "b").isSome = true :=
  ⟨(claim_C10 QTable.empty "a" "b" 1 1).1 "a" "c" (by decide),
   (claim_C10 QTable.empty "a" "b" 1 1).2⟩

/-- C8: the update stores `Q_old + alpha * (r - Q_old)` with an unset key read
as `0.0`, so a single update on an unset key stores exactly `alpha * r`; and
for `0 < alpha < 1`, repeated updates with a fixed reward `r` have distance to
`r` shrinking monotonically and below every positive bound eventually. -/
theorem claim_C8 (t : QTable) (f m : String) (r a : ℚ) :
    (t.update f m r a).getQ f m = t.getQ f m + a * (r - t.getQ f m) ∧
    (t.lookupEntry f m = none → (t.update f m r a).getQ f m = a * r) ∧
    (0 < a → a < 1 →
      (∀ n, |r - (t.iterUpdate f m r a (n + 1)).getQ f m| ≤
        |r - (t.iterUpdate f m r a n).getQ f m|) ∧
      (∀ ε : ℚ, 0 < ε → ∃ N, ∀ n, N ≤ n →
        |r - (t.iterUpdate f m r a n).getQ f m| < ε)) := by
  have hbase : ∀ n, |r - (t.iterUpdate f m r a n).getQ f m| =
      |1 - a| ^ n * |r - t.getQ f m| := by
    intro n
    rw [iterUpdate_closed, abs_mul, abs_pow]
  refine ⟨getQ_update_self t f m r a, ?_, ?_⟩
  · intro h
    have h0 : t.getQ f m = 0 := by rw [getQ_eq_lookupEntry, h]; rfl
    rw [getQ_update_self, h0]; ring
  · intro ha h1
    have hnn : (0 : ℚ) ≤ 1 - a := by linarith
    have habs : |(1 : ℚ) - a| = 1 - a := abs_of_nonneg hnn
    constructor
    · intro n
      rw [hbase, hbase, habs]
      exact mul_le_mul_of_nonneg_right
        (pow_le_pow_of_le_one hnn (by linarith) (Nat.le_succ n)) (abs_nonneg _)
    · intro ε hε
      set c := |r - t.getQ f m| with hc
      have hcnn : (0 : ℚ) ≤ c := abs_nonneg _
      obtain ⟨N, hN⟩ := exists_pow_lt_of_lt_one
        (show (0 : ℚ) < ε / (c + 1) from div_pos hε (by linarith))
        (show (1 : ℚ) - a < 1 by linarith)
      refine ⟨N, fun n hn => ?_⟩
      rw [hbase, habs]
      have step1 : (1 - a) ^ n * c ≤ (1 - a) ^ N * c :=
        mul_le_mul_of_nonneg_right (pow_le_pow_of_le_one hnn (by linarith) hn) hcnn
      have step2 : (1 - a) ^ N * c ≤ ε / (c + 1) * c :=
        mul_le_mul_of_nonneg_right (le_of_lt hN) hcnn
      have step3 : ε / (c + 1) * c < ε := by
        have hlt : c / (c + 1) < 1 := (div_lt_one (by linarith)).mpr (by linarith)
        calc ε / (c + 1) * c = ε * (c / (c + 1)) := by ring
          _ < ε * 1 := by exact mul_lt_mul_of_pos_left hlt hε
          _ = ε := mul_one ε
      calc (1 - a) ^ n * c ≤ (1 - a) ^ N * c := step1
        _ ≤ ε / (c + 1) * c := step2
        _ < ε := step3

theorem claim_C8_witness :
    QTable.empty.lookupEntry "a" "b" = none ∧
    (0 : ℚ) < LEARNING_RATE ∧ LEARNING_RATE < 1 ∧
    (QTable.empty.update "a" "b" 1 LEARNING_RATE).getQ "a" "b" = LEARNING_RATE * 1 ∧
    (∀ n, |1 - (QTable.empty.iterUpdate "a" "b" 1 LEARNING_RATE (n + 1)).getQ "a" "b"| ≤
      |1 - (QTable.empty.iterUpdate "a" "b" 1 LEARNING_RATE n).getQ "a" "b"|) :=
  ⟨rfl, lr_pos, lr_lt_one,
   (claim_C8 QTable.empty "a" "b" 1 LEARNING_RATE).2.1 rfl,
   ((claim_C8 QTable.empty "a" "b" 1 LEARNING_RATE).2.2 lr_pos lr_lt_one).1⟩

/-- C5: `get_ordered_moves` returns the legal moves (a permutation of the
rules engine's enumeration), sorted by descending Q-table preference keyed by
(position identity, move identity) with default 0 for unseen pairs, and the
sort is stable: two moves with equal preference keep the relative order of
the enumeration. -/
theorem claim_C5 (t : QTable) (b : Board) :
    List.Perm (get_ordered_moves t b) b.data.legalMoves ∧
    List.Pairwise (fun m₁ m₂ => t.getQ b.data.fen m₂ ≤ t.getQ b.data.fen m₁)
      (get_ordered_moves t b) ∧
    (∀ m₁ m₂, t.getQ b.data.fen m₁ = t.getQ b.data.fen m₂ →
      List.Sublist [m₁, m₂] b.data.legalMoves →
      List.Sublist [m₁, m₂] (get_ordered_moves t b)) := by
  refine ⟨List.perm_insertionSort _ _, ?_, ?_⟩
  · haveI : IsTotal Move (moveOrder t b.data.fen) := ⟨fun _ _ => le_total _ _⟩
    haveI : IsTrans Move (moveOrder t b.data.fen) :=
      ⟨fun _ _ _ h h' => le_trans h' h⟩
    show List.Pairwise (moveOrder t b.data.fen) (get_ordered_moves t b)
    exact List.sorted_insertionSort _ _
  · intro m₁ m₂ h hs
    exact List.pair_sublist_insertionSort (le_of_eq h.symm) hs

theorem claim_C5_witness :
    List.Sublist ["a", "c"] (get_ordered_moves QTable.empty threeMovesB) :=
  (claim_C5 QTable.empty threeMovesB).2.2 "a" "c" rfl (by decide)

/-- C9: with zero legal moves the driver returns `(None, None)` having made
zero `alpha_beta` invocations (the `calls` field), and `compute_best_move`
returns no move and no tree and leaves the Q-table exactly as it was. -/
theorem claim_C9 (t : QTable) (b : Board) (timeUp : Nat → Bool) (maxDepth : Nat)
    (h : b.data.legalMoves = []) :
    iterative_deepening t b timeUp maxDepth = ⟨none, none, 0⟩ ∧
    compute_best_move t b timeUp maxDepth = (none, none, t) := by
  have hord : get_ordered_moves t b = [] := by
    simp [get_ordered_moves, h]
  constructor
  · simp [iterative_deepening, hord]
  · simp [compute_best_move, iterative_deepening, hord]

theorem claim_C9_witness :
    iterative_deepening QTable.empty noMovesB (fun _ => false) 4 = ⟨none, none, 0⟩ ∧
    compute_best_move QTable.empty noMovesB (fun _ => false) 4 =
      (none, none, QTable.empty) :=
  claim_C9 QTable.empty noMovesB (fun _ => false) 4 rfl

/-! ### foldl max / min toolkit on search values -/

theorem foldl_max_base_le : ∀ (l : List EInt) (v : EInt), v ≤ l.foldl max v
  | [], _ => le_rfl
  | x :: l, v => le_trans (le_max_left v x) (foldl_max_base_le l (max v x))

theorem foldl_max_mono : ∀ (l : List EInt) {v w : EInt}, v ≤ w →
    l.foldl max v ≤ l.foldl max w
  | [], _, _, h => h
  | _ :: l, _, _, h => foldl_max_mono l (max_le_max h le_rfl)

theorem foldl_max_absorb : ∀ (l : List EInt) (v w : EInt),
    l.foldl max (max v w) = max v (l.foldl max w)
  | [], _, _ => rfl
  | x :: l, v, w => by
    simp only [List.foldl_cons]
    rw [max_assoc, foldl_max_absorb l v (max w x)]

theorem foldl_max_eq (l : List EInt) (v : EInt) :
    l.foldl max v = max v (l.foldl max ⊥) := by
  calc l.foldl max v = l.foldl max (max v ⊥) := by rw [max_eq_left bot_le]
    _ = max v (l.foldl max ⊥) := foldl_max_absorb l v ⊥

theorem foldl_min_le_base : ∀ (l : List EInt) (v : EInt), l.foldl min v ≤ v
  | [], _ => le_rfl
  | x :: l, v => le_trans (foldl_min_le_base l (min v x)) (min_le_left v x)

theorem foldl_min_mono : ∀ (l : List EInt) {v w : EInt}, v ≤ w →
    l.foldl min v ≤ l.foldl min w
  | [], _, _, h => h
  | _ :: l, _, _, h => foldl_min_mono l (min_le_min h le_rfl)

theorem foldl_min_absorb : ∀ (l : List EInt) (v w : EInt),
    l.foldl min (min v w) = min v (l.foldl min w)
  | [], _, _ => rfl
  | x :: l, v, w => by
    simp only [List.foldl_cons]
    rw [min_assoc, foldl_min_absorb l v (min w x)]

theorem foldl_min_eq (l : List EInt) (v : EInt) :
    l.foldl min v = min v (l.foldl min ⊤) := by
  calc l.foldl min v = l.foldl min (min v ⊤) := by rw [min_eq_left le_top]
    _ = min v (l.foldl min ⊤) := foldl_min_absorb l v ⊤

/-! ### Fail-soft alpha-beta conditions -/

/-- The fail-soft conditions of an alpha-beta result `f` against the exact
minimax value `g` for a window `(al, be)`: a fail-low result upper-bounds
`g`, a fail-high result lower-bounds `g`, and an in-window result is exact. -/
abbrev ABCond (f g al be : EInt) : Prop :=
  (f ≤ al → g ≤ f) ∧ (be ≤ f → f ≤ g) ∧ (al < f → f < be → f = g)

theorem abLoopMax_cond (rec : Board → EInt → EInt → EInt) (g : Board → EInt)
    (hrec : ∀ c al be, al < be → ABCond (rec c al be) (g c) al be) (b : Board) :
    ∀ (ms : List Move) (v al be : EInt), v ≤ al → al < be →
      ABCond (abLoopMax rec b ms v al be)
        ((ms.map (fun m => g (b.push m))).foldl max v) al be := by
  intro ms
  induction ms with
  | nil =>
    intro v al be _ _
    exact ⟨fun _ => le_rfl, fun _ => le_rfl, fun _ _ => rfl⟩
  | cons m ms ih =>
    intro v al be hv hlt
    obtain ⟨hc1, hc2, hc3⟩ := hrec (b.push m) al be hlt
    simp only [abLoopMax, List.map_cons, List.foldl_cons]
    set f₁ := rec (b.push m) al be with hf₁def
    set g₁ := g (b.push m) with hg₁def
    set L := ms.map (fun m => g (b.push m)) with hLdef
    have hnotbeal : ¬ be ≤ al := not_le.mpr hlt
    by_cases hcut : be ≤ max al (max v f₁)
    · rw [if_pos hcut]
      -- cutoff: the accumulated value failed high
      have hbemax : be ≤ max v f₁ := by
        rcases le_max_iff.mp hcut with h | h
        · exact absurd h hnotbeal
        · exact h
      have hbef : be ≤ f₁ := by
        rcases le_max_iff.mp hbemax with h | h
        · exact absurd (h.trans hv) hnotbeal
        · exact h
      have hvf : max v f₁ = f₁ := max_eq_right (hv.trans (hlt.le.trans hbef))
      refine ⟨fun habs => absurd (hbemax.trans habs) hnotbeal, fun _ => ?_,
        fun _ habs => absurd habs (not_lt.mpr hbemax)⟩
      calc max v f₁ = f₁ := hvf
        _ ≤ g₁ := hc2 hbef
        _ ≤ max v g₁ := le_max_right v g₁
        _ ≤ L.foldl max (max v g₁) := foldl_max_base_le _ _
    · rw [if_neg hcut]
      have hlt' : max al (max v f₁) < be := not_le.mp hcut
      have hf₁be : f₁ < be :=
        lt_of_le_of_lt ((le_max_right v f₁).trans (le_max_right al (max v f₁))) hlt'
      by_cases hf₁ : f₁ ≤ al
      · -- child failed low: its exact value can only be smaller
        have hg₁ : g₁ ≤ f₁ := hc1 hf₁
        have hval : max v f₁ ≤ al := max_le hv hf₁
        have hal' : max al (max v f₁) = al := max_eq_left hval
        rw [hal']
        obtain ⟨ih1, ih2, ih3⟩ := ih (max v f₁) al be hval hlt
        set r := abLoopMax rec b ms (max v f₁) al be with hrdef
        have hGM : L.foldl max (max v g₁) ≤ L.foldl max (max v f₁) :=
          foldl_max_mono _ (max_le_max le_rfl hg₁)
        refine ⟨fun hr => hGM.trans (ih1 hr), fun hr => ?_, fun hr hr' => ?_⟩
        · have h1 := ih2 hr
          rw [foldl_max_eq] at h1
          have hvr : max v f₁ < r := lt_of_le_of_lt hval (lt_of_lt_of_le hlt hr)
          rcases le_max_iff.mp h1 with h | h
          · exact absurd h (not_le.mpr hvr)
          · rw [foldl_max_eq]
            exact h.trans (le_max_right _ _)
        · have h1 := ih3 hr hr'
          rw [foldl_max_eq] at h1
          have hvr : max v f₁ < r := lt_of_le_of_lt hval hr
          have hX : r = L.foldl max ⊥ := by
            rcases max_choice (max v f₁) (L.foldl max ⊥) with h | h
            · rw [h] at h1; exact absurd h1 (ne_of_gt hvr)
            · rw [h] at h1; exact h1
          have hmvX : max v f₁ < L.foldl max ⊥ := hX ▸ hvr
          rw [foldl_max_eq, hX]
          exact (max_eq_right ((max_le_max le_rfl hg₁).trans hmvX.le)).symm
      · -- child value inside the window: exact
        have half₁ : al < f₁ := not_le.mp hf₁
        have hexact : f₁ = g₁ := hc3 half₁ hf₁be
        have hbase : max v g₁ = max v f₁ := by rw [hexact]
        rw [hbase]
        obtain ⟨ih1, ih2, ih3⟩ :=
          ih (max v f₁) (max al (max v f₁)) be (le_max_right _ _) hlt'
        set r := abLoopMax rec b ms (max v f₁) (max al (max v f₁)) be with hrdef
        refine ⟨fun hr => ih1 (hr.trans (le_max_left _ _)), ih2, fun hr hr' => ?_⟩
        by_cases h2 : max al (max v f₁) < r
        · exact ih3 h2 hr'
        · have hle := ih1 (not_lt.mp h2)
          refine le_antisymm ?_ hle
          rcases le_max_iff.mp (not_lt.mp h2) with h | h
          · exact absurd h (not_le.mpr hr)
          · exact h.trans (foldl_max_base_le _ _)

theorem abLoopMin_cond (rec : Board → EInt → EInt → EInt) (g : Board → EInt)
    (hrec : ∀ c al be, al < be → ABCond (rec c al be) (g c) al be) (b : Board) :
    ∀ (ms : List Move) (v al be : EInt), be ≤ v → al < be →
      ABCond (abLoopMin rec b ms v al be)
        ((ms.map (fun m => g (b.push m))).foldl min v) al be := by
  intro ms
  induction ms with
  | nil =>
    intro v al be _ _
    exact ⟨fun _ => le_rfl, fun _ => le_rfl, fun _ _ => rfl⟩
  | cons m ms ih =>
    intro v al be hv hlt
    obtain ⟨hc1, hc2, hc3⟩ := hrec (b.push m) al be hlt
    simp only [abLoopMin, List.map_cons, List.foldl_cons]
    set f₁ := rec (b.push m) al be with hf₁def
    set g₁ := g (b.push m) with hg₁def
    set L := ms.map (fun m => g (b.push m)) with hLdef
    have hnotbeal : ¬ be ≤ al := not_le.mpr hlt
    by_cases hcut : min be (min v f₁) ≤ al
    · rw [if_pos hcut]
      -- cutoff: the accumulated value failed low
      have hminle : min v f₁ ≤ al := by
        rcases min_le_iff.mp hcut with h | h
        · exact absurd h hnotbeal
        · exact h
      have hf₁le : f₁ ≤ al := by
        rcases min_le_iff.mp hminle with h | h
        · exact absurd (hv.trans h) hnotbeal
        · exact h
      have hvf : min v f₁ = f₁ := min_eq_right ((hf₁le.trans hlt.le).trans hv)
      refine ⟨fun _ => ?_, fun habs => absurd (habs.trans hminle) hnotbeal,
        fun habs _ => absurd habs (not_lt.mpr hminle)⟩
      calc L.foldl min (min v g₁) ≤ min v g₁ := foldl_min_le_base _ _
        _ ≤ g₁ := min_le_right v g₁
        _ ≤ f₁ := hc1 hf₁le
        _ = min v f₁ := hvf.symm
    · rw [if_neg hcut]
      have hlt' : al < min be (min v f₁) := not_le.mp hcut
      have half₁ : al < f₁ :=
        lt_of_lt_of_le hlt' ((min_le_right be (min v f₁)).trans (min_le_right v f₁))
      by_cases hf₁ : be ≤ f₁
      · -- child failed high: its exact value can only be larger
        have hg₁ : f₁ ≤ g₁ := hc2 hf₁
        have hval : be ≤ min v f₁ := le_min hv hf₁
        have hbe' : min be (min v f₁) = be := min_eq_left hval
        rw [hbe']
        obtain ⟨ih1, ih2, ih3⟩ := ih (min v f₁) al be hval hlt
        set r := abLoopMin rec b ms (min v f₁) al be with hrdef
        have hGM : L.foldl min (min v f₁) ≤ L.foldl min (min v g₁) :=
          foldl_min_mono _ (min_le_min le_rfl hg₁)
        refine ⟨fun hr => ?_, fun hr => (ih2 hr).trans hGM, fun hr hr' => ?_⟩
        · have h1 := ih1 hr
          rw [foldl_min_eq] at h1
          have hvr : r < min v f₁ := lt_of_le_of_lt hr (lt_of_lt_of_le hlt hval)
          rcases min_le_iff.mp h1 with h | h
          · exact absurd h (not_le.mpr hvr)
          · rw [foldl_min_eq]
            exact le_trans (min_le_right _ _) h
        · have h1 := ih3 hr hr'
          rw [foldl_min_eq] at h1
          have hvr : r < min v f₁ := lt_of_lt_of_le hr' hval
          have hX : r = L.foldl min ⊤ := by
            rcases min_choice (min v f₁) (L.foldl min ⊤) with h | h
            · rw [h] at h1; exact absurd h1 (ne_of_lt hvr)
            · rw [h] at h1; exact h1
          have hXlt : L.foldl min ⊤ < min v g₁ := by
            rw [← hX]
            exact lt_of_lt_of_le hvr (min_le_min le_rfl hg₁)
          rw [foldl_min_eq, hX]
          exact (min_eq_right hXlt.le).symm
      · -- child value inside the window: exact
        have hf₁be : f₁ < be := not_le.mp hf₁
        have hexact : f₁ = g₁ := hc3 half₁ hf₁be
        have hbase : min v g₁ = min v f₁ := by rw [hexact]
        rw [hbase]
        obtain ⟨ih1, ih2, ih3⟩ :=
          ih (min v f₁) al (min be (min v f₁)) (min_le_right _ _) hlt'
        set r := abLoopMin rec b ms (min v f₁) al (min be (min v f₁)) with hrdef
        refine ⟨ih1, fun hr => ih2 ((min_le_left be (min v f₁)).trans hr),
          fun hr hr' => ?_⟩
        by_cases h2 : r < min be (min v f₁)
        · exact ih3 hr h2
        · have hle := ih2 (not_lt.mp h2)
          refine le_antisymm hle ?_
          rcases min_le_iff.mp (not_lt.mp h2) with h | h
          · exact absurd h (not_le.mpr hr')
          · exact (foldl_min_le_base _ _).trans h

theorem ordered_perm (t : QTable) (b : Board) :
    List.Perm (get_ordered_moves t b) b.data.legalMoves :=
  List.perm_insertionSort _ _

theorem alpha_beta_cond (t : QTable) :
    ∀ (depth : Nat) (b : Board) (al be : EInt) (mx : Bool), al < be →
      ABCond (alpha_beta t b depth al be mx) (minimax b depth mx) al be := by
  intro depth
  induction depth with
  | zero =>
    intro b al be mx _
    exact ⟨fun _ => le_rfl, fun _ => le_rfl, fun _ _ => rfl⟩
  | succ d ih =>
    intro b al be mx hlt
    simp only [alpha_beta, minimax]
    by_cases hgo : b.data.isGameOver = true
    · rw [if_pos hgo, if_pos hgo]
      exact ⟨fun _ => le_rfl, fun _ => le_rfl, fun _ _ => rfl⟩
    · rw [if_neg hgo, if_neg hgo]
      by_cases hemp : (get_ordered_moves t b).isEmpty = true
      · have hleg : b.data.legalMoves.isEmpty = true := by
        -- an empty ordered list forces an empty enumeration (they are permutations)
          rw [List.isEmpty_iff] at hemp ⊢
          have hp := ordered_perm t b
          rw [hemp] at hp
          exact hp.symm.eq_nil
        rw [if_pos hemp, if_pos hleg]
        exact ⟨fun _ => le_rfl, fun _ => le_rfl, fun _ _ => rfl⟩
      · have hleg : ¬ b.data.legalMoves.isEmpty = true := by
          rw [List.isEmpty_iff] at hemp ⊢
          intro hnil
          have hp := ordered_perm t b
          rw [hnil] at hp
          exact hemp hp.eq_nil
        rw [if_neg hemp, if_neg hleg]
        cases mx with
        | true =>
          rw [if_pos rfl, if_pos rfl]
          have hloop := abLoopMax_cond
            (fun c al' be' => alpha_beta t c d al' be' false)
            (fun c => minimax c d false)
            (fun c al' be' h => ih c al' be' false h) b
            (get_ordered_moves t b) ⊥ al be bot_le hlt
          have hfold :
              ((get_ordered_moves t b).map (fun m => minimax (b.push m) d false)).foldl
                  max ⊥ =
                (b.data.legalMoves.map (fun m => minimax (b.push m) d false)).foldl
                  max ⊥ :=
            ((ordered_perm t b).map _).foldl_eq ⊥
          rw [← hfold]
          exact hloop
        | false =>
          rw [if_neg (by simp), if_neg (by simp)]
          have hloop := abLoopMin_cond
            (fun c al' be' => alpha_beta t c d al' be' true)
            (fun c => minimax c d true)
            (fun c al' be' h => ih c al' be' true h) b
            (get_ordered_moves t b) ⊤ al be le_top hlt
          have hfold :
              ((get_ordered_moves t b).map (fun m => minimax (b.push m) d true)).foldl
                  min ⊤ =
                (b.data.legalMoves.map (fun m => minimax (b.push m) d true)).foldl
                  min ⊤ :=
            ((ordered_perm t b).map _).foldl_eq ⊤
          rw [← hfold]
          exact hloop

theorem alpha_beta_eq_minimax (t : QTable) (b : Board) (d : Nat) (mx : Bool) :
    alpha_beta t b d ⊥ ⊤ mx = minimax b d mx := by
  obtain ⟨h1, h2, h3⟩ := alpha_beta_cond t d b ⊥ ⊤ mx bot_lt_top
  by_cases hb : alpha_beta t b d ⊥ ⊤ mx ≤ ⊥
  · have hf : alpha_beta t b d ⊥ ⊤ mx = ⊥ := le_bot_iff.mp hb
    have hg : minimax b d mx = ⊥ := le_bot_iff.mp ((h1 hb).trans hb)
    rw [hf, hg]
  · by_cases ht : ⊤ ≤ alpha_beta t b d ⊥ ⊤ mx
    · have hf : alpha_beta t b d ⊥ ⊤ mx = ⊤ := top_le_iff.mp ht
      have hg : minimax b d mx = ⊤ := top_le_iff.mp (ht.trans (h2 ht))
      rw [hf, hg]
    · exact h3 (not_le.mp hb) (not_le.mp ht)

/-- C3: on every game tree (of bounded depth and branching, as any `Board`
value is) and every depth, the alpha-beta search seeded with the full window
`(-∞, +∞)` returns exactly the unpruned full minimax value of the same depth,
for either role of the root player and any Q-table driving the ordering. -/
theorem claim_C3 (t : QTable) (b : Board) (d : Nat) (mx : Bool) :
    alpha_beta t b d ⊥ ⊤ mx = minimax b d mx :=
  alpha_beta_eq_minimax t b d mx

/-! ### Finiteness of search values -/

theorem isFin_max {v w : EInt} (hv : IsFin v) (hw : IsFin w) : IsFin (max v w) := by
  rcases max_choice v w with h | h <;> rw [h] <;> assumption

theorem isFin_min {v w : EInt} (hv : IsFin v) (hw : IsFin w) : IsFin (min v w) := by
  rcases min_choice v w with h | h <;> rw [h] <;> assumption

theorem isFin_bot_lt {v : EInt} (h : IsFin v) : ⊥ < v := by
  obtain ⟨n, rfl⟩ := h
  exact WithBot.bot_lt_coe _

theorem isFin_lt_top {v : EInt} (h : IsFin v) : v < ⊤ := by
  obtain ⟨n, rfl⟩ := h
  exact WithBot.coe_lt_coe.mpr (WithTop.coe_lt_top n)

theorem abLoopMax_fin (rec : Board → EInt → EInt → EInt) (b : Board)
    (hrec : ∀ c al be, IsFin (rec c al be)) :
    ∀ (ms : List Move) (v al be : EInt), (IsFin v ∨ (v = ⊥ ∧ ms ≠ [])) →
      IsFin (abLoopMax rec b ms v al be)
  | [], _, _, _, h => by
    rcases h with h | ⟨_, hne⟩
    · simpa [abLoopMax] using h
    · exact absurd rfl hne
  | m :: ms, v, al, be, h => by
    have hv' : IsFin (max v (rec (b.push m) al be)) := by
      rcases h with h | ⟨rfl, _⟩
      · exact isFin_max h (hrec _ _ _)
      · rw [max_eq_right bot_le]; exact hrec _ _ _
    simp only [abLoopMax]
    by_cases hcut : be ≤ max al (max v (rec (b.push m) al be))
    · rw [if_pos hcut]; exact hv'
    · rw [if_neg hcut]
      exact abLoopMax_fin rec b hrec ms _ _ _ (Or.inl hv')

theorem abLoopMin_fin (rec : Board → EInt → EInt → EInt) (b : Board)
    (hrec : ∀ c al be, IsFin (rec c al be)) :
    ∀ (ms : List Move) (v al be : EInt), (IsFin v ∨ (v = ⊤ ∧ ms ≠ [])) →
      IsFin (abLoopMin rec b ms v al be)
  | [], _, _, _, h => by
    rcases h with h | ⟨_, hne⟩
    · simpa [abLoopMin] using h
    · exact absurd rfl hne
  | m :: ms, v, al, be, h => by
    have hv' : IsFin (min v (rec (b.push m) al be)) := by
      rcases h with h | ⟨rfl, _⟩
      · exact isFin_min h (hrec _ _ _)
      · rw [min_eq_right le_top]; exact hrec _ _ _
    simp only [abLoopMin]
    by_cases hcut : min be (min v (rec (b.push m) al be)) ≤ al
    · rw [if_pos hcut]; exact hv'
    · rw [if_neg hcut]
      exact abLoopMin_fin rec b hrec ms _ _ _ (Or.inl hv')

theorem alpha_beta_fin (t : QTable) :
    ∀ (depth : Nat) (b : Board) (al be : EInt) (mx : Bool),
      IsFin (alpha_beta t b depth al be mx) := by
  intro depth
  induction depth with
  | zero => intro b al be mx; exact ⟨evaluate_board b, rfl⟩
  | succ d ih =>
    intro b al be mx
    simp only [alpha_beta]
    by_cases hgo : b.data.isGameOver = true
    · rw [if_pos hgo]; exact ⟨evaluate_board b, rfl⟩
    · rw [if_neg hgo]
      by_cases hemp : (get_ordered_moves t b).isEmpty = true
      · rw [if_pos hemp]; exact ⟨evaluate_board b, rfl⟩
      · rw [if_neg hemp]
        have hne : get_ordered_moves t b ≠ [] := by
          rw [List.isEmpty_iff] at hemp; exact hemp
        cases mx with
        | true =>
          rw [if_pos rfl]
          exact abLoopMax_fin _ b (fun c al' be' => ih c al' be' false) _ _ _ _
            (Or.inr ⟨rfl, hne⟩)
        | false =>
          rw [if_neg (by simp)]
          exact abLoopMin_fin _ b (fun c al' be' => ih c al' be' true) _ _ _ _
            (Or.inr ⟨rfl, hne⟩)

/-! ### Root loop characterisation -/

theorem foldl_max_mem : ∀ (l : List EInt) (v : EInt),
    l.foldl max v = v ∨ l.foldl max v ∈ l
  | [], _ => Or.inl rfl
  | x :: l, v => by
    simp only [List.foldl_cons]
    rcases foldl_max_mem l (max v x) with h | h
    · rcases max_choice v x with h' | h'
      · exact Or.inl (by rw [h, h'])
      · exact Or.inr (by rw [h, h']; exact List.mem_cons_self _ _)
    · exact Or.inr (List.mem_cons_of_mem _ h)

theorem le_foldl_max_of_mem : ∀ (l : List EInt) (v x : EInt), x ∈ l →
    x ≤ l.foldl max v
  | [], _, _, h => absurd h (List.not_mem_nil _)
  | y :: l, v, x, h => by
    simp only [List.foldl_cons]
    rcases List.mem_cons.mp h with rfl | h
    · exact (le_max_right v x).trans (foldl_max_base_le _ _)
    · exact le_foldl_max_of_mem l (max v y) x h

theorem find?_congr_pred {α : Type} : ∀ (l : List α) (p q : α → Bool),
    (∀ x ∈ l, p x = q x) → l.find? p = l.find? q
  | [], _, _, _ => rfl
  | x :: l, p, q, h => by
    have hx := h x (List.mem_cons_self _ _)
    by_cases hp : p x = true
    · rw [List.find?_cons_of_pos _ hp, List.find?_cons_of_pos _ (hx ▸ hp)]
    · have hq : ¬ q x = true := by rw [← hx]; exact hp
      rw [List.find?_cons_of_neg _ hp, List.find?_cons_of_neg _ hq]
      exact find?_congr_pred l p q (fun y hy => h y (List.mem_cons_of_mem _ hy))

theorem pickBest_snd : ∀ (row : List (Move × EInt)) (s : Option Move × EInt),
    (pickBest row s).2 = (row.map Prod.snd).foldl max s.2
  | [], _ => rfl
  | (m, v) :: row, s => by
    simp only [pickBest, List.map_cons, List.foldl_cons]
    rw [pickBest_snd row]
    congr 1
    by_cases h : s.2 < v
    · rw [if_pos h]
      exact (max_eq_right h.le).symm
    · rw [if_neg h]
      exact (max_eq_left (not_lt.mp h)).symm

theorem pickBest_of_le : ∀ (row : List (Move × EInt)) (cb : Option Move) (cv : EInt),
    (row.map Prod.snd).foldl max cv ≤ cv → pickBest row (cb, cv) = (cb, cv)
  | [], _, _, _ => rfl
  | (m, v) :: row, cb, cv, h => by
    simp only [List.map_cons, List.foldl_cons] at h
    have hvcv : v ≤ cv :=
      ((le_max_right cv v).trans ((foldl_max_base_le _ _).trans h))
    simp only [pickBest]
    rw [if_neg (not_lt.mpr hvcv)]
    apply pickBest_of_le row cb cv
    rw [max_eq_left hvcv] at h
    exact h

theorem pickBest_fst_of_lt : ∀ (row : List (Move × EInt)) (cb : Option Move) (cv : EInt),
    cv < (row.map Prod.snd).foldl max cv →
    (pickBest row (cb, cv)).1 =
      (row.find? (fun p => decide ((row.map Prod.snd).foldl max cv ≤ p.2))).map
        Prod.fst
  | [], _, cv, h => absurd h (lt_irrefl cv)
  | (m, v) :: row, cb, cv, h => by
    simp only [List.map_cons, List.foldl_cons] at h ⊢
    simp only [pickBest]
    by_cases hcv : cv < v
    · rw [if_pos hcv]
      simp only [max_eq_right hcv.le] at h ⊢
      by_cases hrest : (row.map Prod.snd).foldl max v ≤ v
      · have hM : (row.map Prod.snd).foldl max v = v :=
          le_antisymm hrest (foldl_max_base_le _ _)
        rw [hM]
        rw [pickBest_of_le row (some m) v hrest]
        rw [List.find?_cons_of_pos _ (by simp)]
        rfl
      · have hlt' : v < (row.map Prod.snd).foldl max v := not_le.mp hrest
        rw [List.find?_cons_of_neg _ (by simpa using hrest)]
        exact pickBest_fst_of_lt row (some m) v hlt'
    · rw [if_neg hcv]
      have hvle : v ≤ cv := not_lt.mp hcv
      simp only [max_eq_left hvle] at h ⊢
      have hpred : ¬ ((row.map Prod.snd).foldl max cv ≤ v) :=
        not_le.mpr (lt_of_le_of_lt hvle h)
      rw [List.find?_cons_of_neg _ (by simpa using hpred)]
      exact pickBest_fst_of_lt row cb cv h

theorem rootLoop_eq (t : QTable) (b : Board) (d : Nat) :
    ∀ (ms : List Move) (al : EInt) (cb : Option Move) (cv : EInt)
      (acc : List (Move × EInt)) (calls : Nat),
      rootLoop t b d ms al cb cv acc calls =
        (acc.reverse ++ rowOf t b d ms al,
         (pickBest (rowOf t b d ms al) (cb, cv)).1,
         (pickBest (rowOf t b d ms al) (cb, cv)).2,
         calls + ms.length)
  | [], al, cb, cv, acc, calls => by
    simp [rootLoop, rowOf, pickBest]
  | m :: ms, al, cb, cv, acc, calls => by
    simp only [rootLoop, rowOf, pickBest]
    rw [rootLoop_eq t b d ms _ _ _ _ _]
    simp only [List.reverse_cons, List.append_assoc, List.cons_append,
      List.nil_append, List.length_cons, Prod.mk.injEq]
    exact ⟨trivial, trivial, trivial, by omega⟩

theorem rowOf_fin (t : QTable) (b : Board) (d : Nat) :
    ∀ (ms : List Move) (al : EInt), ∀ p ∈ rowOf t b d ms al, IsFin p.2
  | [], _, p, hp => absurd hp (List.not_mem_nil p)
  | m :: ms, al, p, hp => by
    simp only [rowOf, List.mem_cons] at hp
    rcases hp with rfl | hp
    · exact alpha_beta_fin t d (b.push m) al ⊤ false
    · exact rowOf_fin t b d ms _ p hp

theorem rowOf_fst (t : QTable) (b : Board) (d : Nat) :
    ∀ (ms : List Move) (al : EInt), (rowOf t b d ms al).map Prod.fst = ms
  | [], _ => rfl
  | m :: ms, al => by
    simp only [rowOf, List.map_cons, List.cons.injEq]
    exact ⟨trivial, rowOf_fst t b d ms _⟩

theorem rowOf_ne_nil (t : QTable) (b : Board) (d : Nat) (ms : List Move) (al : EInt)
    (h : ms ≠ []) : rowOf t b d ms al ≠ [] := by
  cases ms with
  | nil => exact absurd rfl h
  | cons m ms => simp [rowOf]

theorem pickBest_firstMax (row : List (Move × EInt)) (cb : Option Move)
    (hne : row ≠ []) (hfin : ∀ p ∈ row, IsFin p.2) :
    (pickBest row (cb, ⊥)).1 = firstMaxMove row ∧
      (firstMaxMove row).isSome = true := by
  have hlt : (⊥ : EInt) < (row.map Prod.snd).foldl max ⊥ := by
    obtain ⟨p, hp⟩ := List.exists_mem_of_ne_nil row hne
    exact lt_of_lt_of_le (isFin_bot_lt (hfin p hp))
      (le_foldl_max_of_mem _ _ _ (List.mem_map_of_mem _ hp))
  have h1 := pickBest_fst_of_lt row cb ⊥ hlt
  have hconv : row.find? (fun p => decide ((row.map Prod.snd).foldl max ⊥ ≤ p.2)) =
      row.find? (fun p => decide (p.2 = rowMax row)) := by
    apply find?_congr_pred
    intro p hp
    have hle : p.2 ≤ rowMax row :=
      le_foldl_max_of_mem _ _ _ (List.mem_map_of_mem _ hp)
    refine decide_eq_decide.mpr ⟨fun hM => le_antisymm hle hM, fun hE => ?_⟩
    rw [hE]
    exact le_rfl
  have hmem : rowMax row ∈ row.map Prod.snd := by
    rcases foldl_max_mem (row.map Prod.snd) ⊥ with h | h
    · exact absurd (h ▸ hlt) (lt_irrefl _)
    · exact h
  obtain ⟨p, hp, hpv⟩ := List.mem_map.mp hmem
  have hfind : (row.find? (fun p => decide (p.2 = rowMax row))).isSome = true :=
    List.find?_isSome.mpr ⟨p, hp, by simpa using hpv⟩
  obtain ⟨x, hx⟩ := Option.isSome_iff_exists.mp hfind
  constructor
  · rw [h1, hconv]
    rfl
  · rw [firstMaxMove, hx]
    rfl

theorem depthLoop_inv (t : QTable) (b : Board) (timeUp : Nat → Bool) (ms : List Move)
    (hms : ms ≠ []) :
    ∀ (fuel d : Nat) (best : Option Move) (bestVal : EInt)
      (rows : List (Nat × List (Move × EInt))) (calls : Nat),
      (∃ dr row, rows.getLast? = some (dr, row) ∧ best = firstMaxMove row ∧
        (firstMaxMove row).isSome = true) →
      ∃ dr row,
        (depthLoop t b timeUp ms fuel d best bestVal rows calls).2.1.getLast? =
            some (dr, row) ∧
          (depthLoop t b timeUp ms fuel d best bestVal rows calls).1 =
            firstMaxMove row ∧
          (firstMaxMove row).isSome = true := by
  intro fuel
  induction fuel with
  | zero =>
    intro d best bestVal rows calls h
    simpa [depthLoop] using h
  | succ f ih =>
    intro d best bestVal rows calls h
    simp only [depthLoop]
    by_cases ht : timeUp d = true
    · rw [if_pos ht]
      simpa using h
    · rw [if_neg ht]
      rw [rootLoop_eq]
      obtain ⟨hfst, hsome⟩ := pickBest_firstMax (rowOf t b (d - 1) ms ⊥) best
        (rowOf_ne_nil t b (d - 1) ms ⊥ hms) (rowOf_fin t b (d - 1) ms ⊥)
      have hisSome : ((pickBest (rowOf t b (d - 1) ms ⊥) (best, ⊥)).1).isSome = true := by
        rw [hfst]; exact hsome
      simp only [hisSome, if_true]
      exact ih (d + 1) _ _ _ _
        ⟨d, rowOf t b (d - 1) ms ⊥, List.getLast?_concat _, hfst, hsome⟩

/-- C6: with at least one legal move, at least depth 1 configured and the
depth-1 time check passing, the driver returns exactly the first move (in the
fixed root ordering) achieving the maximum value recorded in the deepest
completed depth's score-table row — deeper completed depths supersede
shallower ones, and ties go to the earlier move because replacement needs a
strictly greater value. -/
theorem claim_C6 (t : QTable) (b : Board) (timeUp : Nat → Bool) (maxDepth : Nat)
    (hmoves : b.data.legalMoves ≠ []) (hdepth : 1 ≤ maxDepth)
    (htime : timeUp 1 = false) :
    ∃ rows dr row,
      (iterative_deepening t b timeUp maxDepth).tree = some rows ∧
      rows.getLast? = some (dr, row) ∧
      (iterative_deepening t b timeUp maxDepth).bestMove = firstMaxMove row ∧
      (firstMaxMove row).isSome = true := by
  have hms : get_ordered_moves t b ≠ [] := by
    intro hnil
    have hp := ordered_perm t b
    rw [hnil] at hp
    exact hmoves hp.symm.eq_nil
  have hempf : ¬ (get_ordered_moves t b).isEmpty = true := by
    rw [List.isEmpty_iff]; exact hms
  obtain ⟨f, rfl⟩ : ∃ f, maxDepth = f + 1 := ⟨maxDepth - 1, by omega⟩
  simp only [iterative_deepening]
  rw [if_neg hempf]
  simp only [depthLoop]
  rw [if_neg (by rw [htime]; exact Bool.false_ne_true)]
  rw [rootLoop_eq]
  obtain ⟨hfst, hsome⟩ := pickBest_firstMax
    (rowOf t b (1 - 1) (get_ordered_moves t b) ⊥) none
    (rowOf_ne_nil t b (1 - 1) (get_ordered_moves t b) ⊥ hms)
    (rowOf_fin t b (1 - 1) (get_ordered_moves t b) ⊥)
  have hisSome :
      ((pickBest (rowOf t b (1 - 1) (get_ordered_moves t b) ⊥) (none, ⊥)).1).isSome =
        true := by
    rw [hfst]; exact hsome
  simp only [hisSome, if_true]
  obtain ⟨dr, row, hlast, hbest, hrsome⟩ := depthLoop_inv t b timeUp
    (get_ordered_moves t b) hms f 2 _ _ _ _
    ⟨1, rowOf t b (1 - 1) (get_ordered_moves t b) ⊥, List.getLast?_concat _,
      hfst, hsome⟩
  exact ⟨_, dr, row, rfl, hlast, hbest, hrsome⟩

theorem claim_C6_witness :
    ∃ rows dr row,
      (iterative_deepening QTable.empty ceB (fun _ => false) 2).tree = some rows ∧
      rows.getLast? = some (dr, row) ∧
      (iterative_deepening QTable.empty ceB (fun _ => false) 2).bestMove =
        firstMaxMove row ∧
      (firstMaxMove row).isSome = true :=
  claim_C6 QTable.empty ceB (fun _ => false) 2 (by decide) (by decide) rfl

/-! ### Soundness of the recorded root values (C2) -/

theorem alpha_beta_root_sound (t : QTable) (c : Board) (d : Nat) (al : EInt)
    (hal : al < ⊤) :
    minimax c d false ≤ alpha_beta t c d al ⊤ false ∧
      (al < alpha_beta t c d al ⊤ false →
        alpha_beta t c d al ⊤ false = minimax c d false) := by
  obtain ⟨h1, h2, h3⟩ := alpha_beta_cond t d c al ⊤ false hal
  by_cases hle : alpha_beta t c d al ⊤ false ≤ al
  · exact ⟨h1 hle, fun h => absurd h (not_lt.mpr hle)⟩
  · by_cases htop : alpha_beta t c d al ⊤ false = ⊤
    · have hg : minimax c d false = ⊤ :=
        top_le_iff.mp ((le_of_eq htop.symm).trans (h2 (le_of_eq htop.symm)))
      have heq : alpha_beta t c d al ⊤ false = minimax c d false := by
        rw [htop, hg]
      exact ⟨le_of_eq heq.symm, fun _ => heq⟩
    · have heq := h3 (not_le.mp hle) (lt_top_iff_ne_top.mpr htop)
      exact ⟨le_of_eq heq.symm, fun _ => heq⟩

theorem rowOf_sound (t : QTable) (b : Board) (d : Nat) :
    ∀ (ms : List Move) (al : EInt), al < ⊤ →
      RowSoundFrom t b d (rowOf t b d ms al) al
  | [], _, _ => trivial
  | m :: ms, al, hal => by
    simp only [rowOf, RowSoundFrom]
    obtain ⟨hub, hex⟩ := alpha_beta_root_sound t (b.push m) d al hal
    refine ⟨hub, hex, ?_⟩
    exact rowOf_sound t b d ms _
      (max_lt hal (isFin_lt_top (alpha_beta_fin t d (b.push m) al ⊤ false)))

theorem depthLoop_rows (t : QTable) (b : Board) (timeUp : Nat → Bool)
    (ms : List Move) :
    ∀ (fuel d : Nat) (best : Option Move) (bestVal : EInt)
      (rows : List (Nat × List (Move × EInt))) (calls : Nat),
      (∀ pr ∈ rows, pr.2 = rowOf t b (pr.1 - 1) ms ⊥) →
      ∀ pr ∈ (depthLoop t b timeUp ms fuel d best bestVal rows calls).2.1,
        pr.2 = rowOf t b (pr.1 - 1) ms ⊥ := by
  intro fuel
  induction fuel with
  | zero =>
    intro d best bestVal rows calls h
    simpa [depthLoop] using h
  | succ f ih =>
    intro d best bestVal rows calls h
    simp only [depthLoop]
    by_cases ht : timeUp d = true
    · rw [if_pos ht]; simpa using h
    · rw [if_neg ht]
      rw [rootLoop_eq]
      apply ih
      intro pr hpr
      rcases List.mem_append.mp hpr with hold | hnew
      · exact h pr hold
      · rcases List.mem_singleton.mp hnew with rfl
        simp

/-- C2 (amended): for every depth row the driver completes, the row is the
root-loop record where each root move's reply is searched at `depth - 1` with
`maximizing=False` and window `(alpha, +∞)` for the running alpha (starting at
`-∞` and raised by every recorded value); every recorded value upper-bounds
the exact depth-limited minimax value of the position after the move, a
recorded value strictly above the alpha in force is exactly that minimax
value, and in particular the first root move's recorded value is exactly its
minimax value. -/
theorem claim_C2 (t : QTable) (b : Board) (timeUp : Nat → Bool) (maxDepth : Nat)
    (rows : List (Nat × List (Move × EInt)))
    (htree : (iterative_deepening t b timeUp maxDepth).tree = some rows) :
    ∀ dr row, (dr, row) ∈ rows →
      row = rowOf t b (dr - 1) (get_ordered_moves t b) ⊥ ∧
      RowSoundFrom t b (dr - 1) row ⊥ ∧
      (∀ m ms', get_ordered_moves t b = m :: ms' →
        row.head? = some (m, minimax (b.push m) (dr - 1) false)) := by
  have hrows : ∀ pr ∈ rows, pr.2 = rowOf t b (pr.1 - 1) (get_ordered_moves t b) ⊥ := by
    by_cases hemp : (get_ordered_moves t b).isEmpty = true
    · rw [iterative_deepening, if_pos hemp] at htree
      cases htree
    · rw [iterative_deepening, if_neg hemp] at htree
      have hrows' := depthLoop_rows t b timeUp (get_ordered_moves t b)
        maxDepth 1 none ⊥ [] 0 (by intro pr hpr; cases hpr)
      intro pr hpr
      apply hrows'
      have : rows = (depthLoop t b timeUp (get_ordered_moves t b) maxDepth 1
          none ⊥ [] 0).2.1 := by
        cases htree; rfl
      rw [← this]
      exact hpr
  intro dr row hmem
  have hrow : row = rowOf t b (dr - 1) (get_ordered_moves t b) ⊥ := hrows (dr, row) hmem
  refine ⟨hrow, ?_, ?_⟩
  · rw [hrow]
    exact rowOf_sound t b (dr - 1) (get_ordered_moves t b) ⊥ bot_lt_top
  · intro m ms' hcons
    rw [hrow, hcons]
    simp only [rowOf, List.head?_cons, Option.some.injEq, Prod.mk.injEq]
    exact ⟨trivial, alpha_beta_eq_minimax t (b.push m) (dr - 1) false⟩

/-- C2 counterexample: running the driver on `ceB` with depth 2 and no time
pressure records value 30 for root move "b" at depth 2, while the exact
depth-1 minimax value of the position after "b" is 0 — the recorded value is
not the full-window minimax value, because the root loop reuses the raised
alpha (here 50, from move "a") instead of the full window. -/
theorem claim_C2_counterexample :
    (iterative_deepening QTable.empty ceB (fun _ => false) 2).tree =
      some [(1, [("a", intE 50), ("b", intE 0)]),
            (2, [("a", intE 50), ("b", intE 30)])] ∧
    minimax (ceB.push "b") 1 false = intE 0 ∧
    (intE 30 : EInt) ≠ intE 0 := by
  refine ⟨rfl, rfl, ?_⟩
  decide

theorem claim_C2_witness :
    RowSoundFrom QTable.empty ceB 1 [("a", intE 50), ("b", intE 30)] ⊥ ∧
    ([("a", intE 50), ("b", intE 30)] : List (Move × EInt)).head? =
      some ("a", minimax (ceB.push "a") 1 false) := by
  have h := claim_C2 QTable.empty ceB (fun _ => false) 2
    [(1, [("a", intE 50), ("b", intE 0)]), (2, [("a", intE 50), ("b", intE 30)])]
    rfl 2 [("a", intE 50), ("b", intE 30)] (by decide)
  exact ⟨h.2.1, h.2.2 "a" ["b"] rfl⟩

/-! ### Terminal credit assignment (C1) -/

theorem terminalCredit_fst (r : ℚ) :
    ∀ (hist : List (String × Move)) (q1 : QTable) (q2 : Option QTable),
      (terminalCredit q1 q2 r hist).1 =
        hist.foldl (fun t fm => t.update fm.1 fm.2 r LEARNING_RATE) q1
  | [], _, _ => rfl
  | fm :: hist, q1, q2 => by
    simp only [terminalCredit, List.foldl_cons]
    exact terminalCredit_fst r hist _ _

theorem terminalCredit_snd_some (r : ℚ) :
    ∀ (hist : List (String × Move)) (q1 t2 : QTable),
      (terminalCredit q1 (some t2) r hist).2 =
        some (hist.foldl (fun t fm => t.update fm.1 fm.2 (-r) LEARNING_RATE) t2)
  | [], _, _ => rfl
  | fm :: hist, q1, t2 => by
    simp only [terminalCredit, List.foldl_cons]
    exact terminalCredit_snd_some r hist _ _

theorem creditFold (r : ℚ) :
    ∀ (hist : List (String × Move)) (q : QTable) (f m : String),
      (hist.foldl (fun t fm => t.update fm.1 fm.2 r LEARNING_RATE) q).getQ f m =
        r - (1 - LEARNING_RATE) ^ (hist.count (f, m)) * (r - q.getQ f m)
  | [], q, f, m => by simp
  | (f₀, m₀) :: hist, q, f, m => by
    simp only [List.foldl_cons]
    rw [creditFold r hist _ f m]
    by_cases h : (f₀, m₀) = (f, m)
    · obtain ⟨rfl, rfl⟩ := Prod.mk.injEq f₀ m₀ f m ▸ h
      rw [List.count_cons_self, getQ_update_self]
      ring
    · rw [List.count_cons_of_ne (Ne.symm h)]
      rw [getQ_update_of_ne q f₀ m₀ r LEARNING_RATE f m
        (fun hc => h (by rw [hc.1, hc.2]))]

theorem playMoves_append (b : Board) (ms : List Move) (mv : Move) :
    (playMoves b (ms ++ [mv])).2 =
      (playMoves b ms).2 ++ [(((playMoves b ms).1.push mv).data.fen, mv)] := by
  simp [playMoves, List.foldl_append, recordMove]

/-- C1 (amended): at game end the terminal reward is applied, via the
single-step update rule at the default learning rate, to every
`(position identity, move identity)` pair of the *shared* move history — the
moves of both players — where the recorded position identity is that of the
position *after* the move (`board.fen()` is read after `board.push`); the
second table, when present, receives the negated reward applied to the same
shared history.  Pairs occurring `c` times in the history end at
`r - (1-α)^c (r - Q_old)`; pairs not in the history (in particular every
pre-move keyed pair absent from it) are untouched. -/
theorem claim_C1 (q1 t2 : QTable) (r : ℚ) (b0 : Board) (ms : List Move)
    (f m : String) :
    ((terminalCredit q1 (some t2) r (playMoves b0 ms).2).1.getQ f m =
      r - (1 - LEARNING_RATE) ^ ((playMoves b0 ms).2.count (f, m)) *
        (r - q1.getQ f m)) ∧
    ((terminalCredit q1 (some t2) r (playMoves b0 ms).2).2 =
      some ((playMoves b0 ms).2.foldl
        (fun t fm => t.update fm.1 fm.2 (-r) LEARNING_RATE) t2)) ∧
    (((playMoves b0 ms).2.foldl
        (fun t fm => t.update fm.1 fm.2 (-r) LEARNING_RATE) t2).getQ f m =
      -r - (1 - LEARNING_RATE) ^ ((playMoves b0 ms).2.count (f, m)) *
        (-r - t2.getQ f m)) ∧
    (∀ mv, (playMoves b0 (ms ++ [mv])).2 =
      (playMoves b0 ms).2 ++ [(((playMoves b0 ms).1.push mv).data.fen, mv)]) := by
  refine ⟨?_, terminalCredit_snd_some r _ q1 t2, ?_, fun mv => playMoves_append b0 ms mv⟩
  · rw [terminalCredit_fst]
    exact creditFold r _ q1 f m
  · exact creditFold (-r) _ t2 f m

/-- C1 counterexample: in the two-move sample game (White plays "m1" from
"f0" reaching "f1", Black plays "m2" reaching the checkmate "f2", so White
wins with reward +1), after the terminal credit assignment the pre-move key
`("f0", "m1")` of White's move is untouched, the post-move key
`("f1", "m1")` holds the update instead, and the second table was also
updated at White's move — not only at its own move history. -/
theorem claim_C1_counterexample :
    goal_test mateP2 = "Win" ∧
    terminalReward (goal_test mateP2) = 1 ∧
    (playMoves mateP0 ["m1", "m2"]).2 = [("f1", "m1"), ("f2", "m2")] ∧
    ((terminalCredit QTable.empty (some QTable.empty) 1
        (playMoves mateP0 ["m1", "m2"]).2).1.lookupEntry "f0" "m1" = none) ∧
    ((terminalCredit QTable.empty (some QTable.empty) 1
        (playMoves mateP0 ["m1", "m2"]).2).1.getQ "f1" "m1" = LEARNING_RATE) ∧
    (∃ t2', (terminalCredit QTable.empty (some QTable.empty) 1
        (playMoves mateP0 ["m1", "m2"]).2).2 = some t2' ∧
      t2'.getQ "f1" "m1" = -LEARNING_RATE) := by
  have hcount : List.count (("f1", "m1") : String × String)
      ((playMoves mateP0 ["m1", "m2"]).2) = 1 := rfl
  refine ⟨rfl, rfl, rfl, rfl, ?_, ?_⟩
  · rw [terminalCredit_fst, creditFold, hcount]
    norm_num [QTable.getQ, QTable.empty, LEARNING_RATE]
  · refine ⟨_, terminalCredit_snd_some 1 _ _ _, ?_⟩
    rw [creditFold, hcount]
    norm_num [QTable.getQ, QTable.empty, LEARNING_RATE]

/-! ### Frame discipline of board mutation (C7) -/

theorem runTrace_append : ∀ (t₁ t₂ : List Ev) (s : Stk),
    runTrace s (t₁ ++ t₂) = runTrace (runTrace s t₁) t₂
  | [], _, _ => rfl
  | Ev.push m :: t₁, t₂, s => by
    simp only [List.cons_append, runTrace]
    exact runTrace_append t₁ t₂ (s.doPush m)
  | Ev.pop :: t₁, t₂, s => by
    simp only [List.cons_append, runTrace]
    exact runTrace_append t₁ t₂ s.doPop

theorem Balanced.run_eq {tr : List Ev} (h : Balanced tr) :
    ∀ s : Stk, runTrace s tr = s := by
  induction h with
  | nil => intro s; rfl
  | nest m h₁ h₂ ih₁ ih₂ =>
    intro s
    simp only [runTrace, List.append_eq]
    rw [runTrace_append, ih₁]
    simp only [runTrace]
    have hps : (s.doPush m).doPop = s := rfl
    rw [hps]
    exact ih₂ s

theorem Balanced.append : ∀ {t₁ t₂ : List Ev}, Balanced t₁ → Balanced t₂ →
    Balanced (t₁ ++ t₂) := by
  intro t₁ t₂ h₁ h₂
  induction h₁ with
  | nil => simpa using h₂
  | nest m ha hb _ ihb =>
    simp only [List.cons_append, List.append_assoc]
    exact Balanced.nest m ha ihb

theorem abLoopMaxTrace_balanced (rec : Board → EInt → EInt → EInt)
    (recT : Board → EInt → EInt → List Ev) (b : Board)
    (hrec : ∀ c al be, Balanced (recT c al be)) :
    ∀ (ms : List Move) (v al be : EInt),
      Balanced (abLoopMaxTrace rec recT b ms v al be)
  | [], _, _, _ => Balanced.nil
  | m :: ms, v, al, be => by
    simp only [abLoopMaxTrace]
    by_cases hcut : be ≤ max al (max v (rec (b.push m) al be))
    · rw [if_pos hcut]
      exact Balanced.nest m (hrec _ _ _) Balanced.nil
    · rw [if_neg hcut]
      exact Balanced.nest m (hrec _ _ _)
        (abLoopMaxTrace_balanced rec recT b hrec ms _ _ _)

theorem abLoopMinTrace_balanced (rec : Board → EInt → EInt → EInt)
    (recT : Board → EInt → EInt → List Ev) (b : Board)
    (hrec : ∀ c al be, Balanced (recT c al be)) :
    ∀ (ms : List Move) (v al be : EInt),
      Balanced (abLoopMinTrace rec recT b ms v al be)
  | [], _, _, _ => Balanced.nil
  | m :: ms, v, al, be => by
    simp only [abLoopMinTrace]
    by_cases hcut : min be (min v (rec (b.push m) al be)) ≤ al
    · rw [if_pos hcut]
      exact Balanced.nest m (hrec _ _ _) Balanced.nil
    · rw [if_neg hcut]
      exact Balanced.nest m (hrec _ _ _)
        (abLoopMinTrace_balanced rec recT b hrec ms _ _ _)

theorem alphaBetaTrace_balanced (t : QTable) :
    ∀ (d : Nat) (b : Board) (al be : EInt) (mx : Bool),
      Balanced (alphaBetaTrace t b d al be mx) := by
  intro d
  induction d with
  | zero =>
    intro b al be mx
    exact Balanced.nil
  | succ d ih =>
    intro b al be mx
    simp only [alphaBetaTrace]
    by_cases hgo : b.data.isGameOver = true
    · rw [if_pos hgo]; exact Balanced.nil
    · rw [if_neg hgo]
      by_cases hemp : (get_ordered_moves t b).isEmpty = true
      · rw [if_pos hemp]; exact Balanced.nil
      · rw [if_neg hemp]
        cases mx with
        | true =>
          rw [if_pos rfl]
          exact abLoopMaxTrace_balanced _ _ b
            (fun c al' be' => ih c al' be' false) _ _ _ _
        | false =>
          rw [if_neg (by simp)]
          exact abLoopMinTrace_balanced _ _ b
            (fun c al' be' => ih c al' be' true) _ _ _ _

theorem rootLoopTrace_balanced (t : QTable) (b : Board) (d : Nat) :
    ∀ (ms : List Move) (al : EInt), Balanced (rootLoopTrace t b d ms al)
  | [], _ => Balanced.nil
  | m :: ms, al => by
    simp only [rootLoopTrace]
    exact Balanced.nest m (alphaBetaTrace_balanced t d (b.push m) al ⊤ false)
      (rootLoopTrace_balanced t b d ms _)

theorem depthLoopTrace_balanced (t : QTable) (b : Board) (timeUp : Nat → Bool)
    (ms : List Move) :
    ∀ (fuel d : Nat), Balanced (depthLoopTrace t b timeUp ms fuel d)
  | 0, _ => Balanced.nil
  | fuel + 1, d => by
    simp only [depthLoopTrace]
    by_cases ht : timeUp d = true
    · rw [if_pos ht]; exact Balanced.nil
    · rw [if_neg ht]
      exact (rootLoopTrace_balanced t b (d - 1) ms ⊥).append
        (depthLoopTrace_balanced t b timeUp ms fuel (d + 1))

theorem iterativeDeepeningTrace_balanced (t : QTable) (b : Board)
    (timeUp : Nat → Bool) (maxDepth : Nat) :
    Balanced (iterativeDeepeningTrace t b timeUp maxDepth) := by
  simp only [iterativeDeepeningTrace]
  by_cases hemp : (get_ordered_moves t b).isEmpty = true
  · rw [if_pos hemp]; exact Balanced.nil
  · rw [if_neg hemp]
    exact depthLoopTrace_balanced t b timeUp (get_ordered_moves t b) maxDepth 1

theorem computeBestMoveTrace_balanced (t : QTable) (b : Board)
    (timeUp : Nat → Bool) (maxDepth : Nat) :
    Balanced (computeBestMoveTrace t b timeUp maxDepth) := by
  apply (iterativeDeepeningTrace_balanced t b timeUp maxDepth).append
  cases (iterative_deepening t b timeUp maxDepth).bestMove with
  | some m => exact Balanced.nest m Balanced.nil Balanced.nil
  | none => exact Balanced.nil

/-- C7: every board mutation the search performs is reverted before the call
returns, in strict last-applied-first-reverted order: the push/pop traces of
`alpha_beta` and of `compute_best_move` are balanced (each pop reverts
exactly the latest unreverted push), and running either trace against any
position stack leaves it exactly as it was. -/
theorem claim_C7 (t : QTable) (b : Board) (d : Nat) (al be : EInt) (mx : Bool)
    (timeUp : Nat → Bool) (maxDepth : Nat) (s : Stk) :
    (Balanced (alphaBetaTrace t b d al be mx) ∧
      runTrace s (alphaBetaTrace t b d al be mx) = s) ∧
    (Balanced (computeBestMoveTrace t b timeUp maxDepth) ∧
      runTrace s (computeBestMoveTrace t b timeUp maxDepth) = s) :=
  ⟨⟨alphaBetaTrace_balanced t d b al be mx,
    (alphaBetaTrace_balanced t d b al be mx).run_eq s⟩,
   ⟨computeBestMoveTrace_balanced t b timeUp maxDepth,
    (computeBestMoveTrace_balanced t b timeUp maxDepth).run_eq s⟩⟩

end ChessAI
